import Mathlib

/-!
Shallow embedding of the Portfolio-Tracker analytics core
(src/calculations.py and src/risk_metrics.py).

Modelling conventions:
* Numeric cell values are rationals (`ℚ`); exact arithmetic stands in for
  IEEE doubles.
* A pandas NaN cell (missing price, undefined derived value) is `none` in an
  `Option ℚ` field.  IEEE division by zero produces a non-finite value
  (inf/NaN), never an exception; `fdiv?` models that outcome as `none`.
* A DataFrame column is a Lean list; a dict is an association list looked up
  with `List.lookup`.
* Quantities that pandas computes with `std`/`sqrt` live over `ℝ`
  (`Real.sqrt`); everything else stays in `ℚ` so it can be evaluated.
-/

/-- One row of the holdings table: Ticker, Quantity, Buy_Price, Buy_Date. -/
structure Holding where
  ticker : String
  quantity : ℚ
  buy_price : ℚ
  buy_date : String
deriving Repr, DecidableEq

instance : Inhabited Holding := ⟨⟨"", 0, 0, ""⟩⟩

/-- One row of the valued table produced by `calculate_portfolio_values`:
the input columns plus Current_Price, Total_Cost, Current_Value, Gain/Loss
(`Gain_Loss`) and Return % (`Return_pct`).  Fields that can be NaN are
`Option ℚ`. -/
structure ValuedHolding where
  ticker : String
  quantity : ℚ
  buy_price : ℚ
  buy_date : String
  Current_Price : Option ℚ
  Total_Cost : ℚ
  Current_Value : Option ℚ
  Gain_Loss : Option ℚ
  Return_pct : Option ℚ
deriving Repr, DecidableEq

instance : Inhabited ValuedHolding :=
  ⟨⟨"", 0, 0, "", none, 0, none, none, none⟩⟩

/-- IEEE float division: a zero denominator yields a non-finite value
(inf or NaN), modelled as `none`; otherwise the exact quotient. -/
def fdiv? (a b : ℚ) : Option ℚ :=
  if b = 0 then none else some (a / b)

/-- calculations.py lines 15-21, one row: `result_df["Ticker"].map(current_prices)`
is the dict lookup (NaN when absent), and the four derived columns propagate
NaN through the arithmetic. -/
def valueRow (current_prices : List (String × ℚ)) (h : Holding) : ValuedHolding :=
  let cp := current_prices.lookup h.ticker
  let tc := h.quantity * h.buy_price
  let cv := cp.map (fun p => h.quantity * p)
  let gl := cv.map (fun v => v - tc)
  let rp := gl.bind (fun g => (fdiv? g tc).map (fun x => x * 100))
  ⟨h.ticker, h.quantity, h.buy_price, h.buy_date, cp, tc, cv, gl, rp⟩

/-- calculations.py `calculate_portfolio_values`: column-wise assignments on a
copy of the input frame, i.e. one valued row per input row, in order. -/
def calculate_portfolio_values (portfolio_df : List Holding)
    (current_prices : List (String × ℚ)) : List ValuedHolding :=
  portfolio_df.map (valueRow current_prices)

/-- calculations.py `portfolio_summary`: pandas `.sum()` skips NaN, so
`Total_Cost` (never NaN) sums over all rows and `Current_Value` sums over the
rows whose value is present.  The final division by `total_invested` is IEEE
division: non-finite (modelled `none`) when `total_invested = 0`. -/
def portfolio_summary (portfolio_df : List ValuedHolding) : ℚ × ℚ × Option ℚ :=
  let total_invested := (portfolio_df.map (fun r => r.Total_Cost)).sum
  let total_value := (portfolio_df.filterMap (fun r => r.Current_Value)).sum
  (total_invested, total_value,
    (fdiv? (total_value - total_invested) total_invested).map (fun x => x * 100))

/-- pandas `Series.pct_change().dropna()` on a gap-free column:
`price[t]/price[t-1] - 1`, the undefined first row dropped. -/
def pct_change (ps : List ℚ) : List ℚ :=
  (ps.zip ps.tail).map (fun pr => pr.2 / pr.1 - 1)

/-- Initial_Value column: Quantity * Buy_Price. -/
def initialValue (h : Holding) : ℚ := h.quantity * h.buy_price

/-- `groupby("Ticker")["Initial_Value"].sum()` at one ticker. -/
def aggInitial (pf : List Holding) (tk : String) : ℚ :=
  ((pf.filter (fun h => h.ticker = tk)).map initialValue).sum

/-- `aggregated.sum()`: total initial cost of the whole portfolio. -/
def totalInitial (pf : List Holding) : ℚ := (pf.map initialValue).sum

/-- The distinct tickers of the portfolio (the group-by index). -/
def portfolioTickers (pf : List Holding) : List String :=
  (pf.map (fun h => h.ticker)).dedup

/-- Column labels of the price panel. -/
def panelCols (prices_df : List (String × List ℚ)) : List String :=
  prices_df.map Prod.fst

/-- Price history of one panel column (empty when the column is absent). -/
def colPrices (prices_df : List (String × List ℚ)) (tk : String) : List ℚ :=
  (prices_df.lookup tk).getD []

/-- calculations.py line 71: `set(weights.index) & set(daily_returns.columns)`. -/
def commonTickers (prices_df : List (String × List ℚ)) (pf : List Holding) :
    List String :=
  (portfolioTickers pf).filter (fun tk => tk ∈ panelCols prices_df)

/-- calculations.py line 64: `weights = aggregated / total_initial`. -/
def weight (pf : List Holding) (tk : String) : ℚ :=
  aggInitial pf tk / totalInitial pf

/-- calculations.py line 72: `weights = weights[common_tickers]` — the weights
actually multiplied into the return columns.  No renormalisation happens. -/
def appliedWeights (prices_df : List (String × List ℚ)) (pf : List Holding) :
    List (String × ℚ) :=
  (commonTickers prices_df pf).map (fun tk => (tk, weight pf tk))

/-- Number of rows surviving `pct_change().dropna()` on a gap-free panel:
one less than the (common) column length; `min` over the columns realises the
"rows where every column is defined" join for a rectangular frame. -/
def returnRowCount (prices_df : List (String × List ℚ)) : ℕ :=
  ((prices_df.map (fun c => c.2.length)).min?.getD 0) - 1

/-- pandas `.cumprod()`: running product. -/
def cumprod (xs : List ℚ) : List ℚ :=
  (List.range xs.length).map (fun t => (xs.take (t + 1)).prod)

/-- calculations.py `calculate_portfolio_returns`: weighted sum of the common
tickers' periodic returns, and its cumulative product.  Returns the pair
`(portfolio_returns, portfolio_cumulative)`. -/
def calculate_portfolio_returns (prices_df : List (String × List ℚ))
    (portfolio_df : List Holding) : List ℚ × List ℚ :=
  let common := commonTickers prices_df portfolio_df
  let portfolio_returns :=
    (List.range (returnRowCount prices_df)).map (fun t =>
      (common.map (fun tk =>
        weight portfolio_df tk * (pct_change (colPrices prices_df tk)).getD t 0)).sum)
  (portfolio_returns, cumprod (portfolio_returns.map (fun r => 1 + r)))

/-! ### risk_metrics.py — exact (ℚ) layer -/

/-- pandas `.mean()` of a list of numbers: sum over length. -/
def meanQ (xs : List ℚ) : ℚ := xs.sum / xs.length

/-- pandas `.var()` (ddof = 1): sum of squared deviations over `n - 1`. -/
def sampleVar (xs : List ℚ) : ℚ :=
  ((xs.map (fun x => (x - meanQ xs) ^ 2)).sum) / ((xs.length : ℚ) - 1)

/-- pandas `.cov()` (ddof = 1) of two equally long columns. -/
def sampleCov (xs ys : List ℚ) : ℚ :=
  (((xs.zip ys).map (fun p => (p.1 - meanQ xs) * (p.2 - meanQ ys))).sum)
    / ((xs.length : ℚ) - 1)

/-- A time-indexed return series: (date, value) rows, a `none` value being a
NaN cell.  Dates are abstract naturals. -/
abbrev DatedSeries := List (ℕ × Option ℚ)

/-- Value of a series at a date, when the date is present. -/
def lookupDate (s : DatedSeries) (d : ℕ) : Option (Option ℚ) :=
  s.lookup d

/-- risk_metrics.py line 85: `pd.concat([p, b], axis=1).dropna()` — the rows
whose date carries a value in both series; a date absent from one series or a
NaN in either column drops the row. -/
def alignSeries (p b : DatedSeries) : List (ℚ × ℚ) :=
  p.filterMap (fun row =>
    row.2.bind (fun x => ((lookupDate b row.1).bind id).map (fun y => (x, y))))

/-- risk_metrics.py `calculate_beta`: 1.0 on fewer than 2 aligned rows or a
zero benchmark variance, else covariance over benchmark variance. -/
def calculate_beta (portfolio_returns benchmark_returns : DatedSeries) : ℚ :=
  let aligned := alignSeries portfolio_returns benchmark_returns
  if aligned.length < 2 then 1
  else
    let portfolio_col := aligned.map Prod.fst
    let benchmark_col := aligned.map Prod.snd
    let benchmark_variance := sampleVar benchmark_col
    if benchmark_variance = 0 then 1
    else sampleCov portfolio_col benchmark_col / benchmark_variance

/-- risk_metrics.py lines 49-51 and 66-68 (identical bodies): cumulative
growth, its running peak, and the relative drop from the peak. -/
def calculate_drawdown_series (returns : List ℚ) : List ℚ :=
  let cumulative := cumprod (returns.map (fun r => 1 + r))
  (List.range cumulative.length).map (fun t =>
    let c := cumulative.getD t 0
    let m := ((cumulative.take (t + 1)).max?).getD 0
    (c - m) / m)

/-- risk_metrics.py `max_drawdown`: the same three lines as
`calculate_drawdown_series`, then `.min()` (NaN — here `none` — on empty). -/
def max_drawdown (returns : List ℚ) : Option ℚ :=
  let cumulative := cumprod (returns.map (fun r => 1 + r))
  let drawdown :=
    (List.range cumulative.length).map (fun t =>
      let c := cumulative.getD t 0
      let m := ((cumulative.take (t + 1)).max?).getD 0
      (c - m) / m)
  drawdown.min?

/-- `np.percentile(xs, q)` with the default linear interpolation:
position `(n-1)·q/100` between the sorted order statistics.  Faithful for
`0 ≤ q ≤ 100` (outside that range numpy raises instead). -/
def percentile (xs : List ℚ) (q : ℚ) : ℚ :=
  let s := List.insertionSort (· ≤ ·) xs
  let pos := ((xs.length : ℚ) - 1) * q / 100
  let i := (⌊pos⌋).toNat
  let lo := s.getD i 0
  let hi := s.getD (i + 1) (s.getD (xs.length - 1) 0)
  lo + (pos - ⌊pos⌋) * (hi - lo)

/-- risk_metrics.py `value_at_risk_historical`. -/
def value_at_risk_historical (returns : List ℚ) (confidence_level : ℚ) : ℚ :=
  if returns.length < 2 then 0
  else |percentile returns ((1 - confidence_level) * 100)|

/-- risk_metrics.py `conditional_value_at_risk`. -/
def conditional_value_at_risk (returns : List ℚ) (confidence_level : ℚ) : ℚ :=
  if returns.length < 2 then 0
  else
    let var_threshold := percentile returns ((1 - confidence_level) * 100)
    let tail_losses := returns.filter (fun r => r ≤ var_threshold)
    if tail_losses.length = 0 then |var_threshold|
    else |meanQ tail_losses|

/-! ### risk_metrics.py — real (ℝ) layer, for the std/sqrt based metrics -/

/-- pandas `.mean()` over ℝ. -/
noncomputable def meanR (xs : List ℝ) : ℝ := xs.sum / xs.length

/-- pandas `.var()` (ddof = 1) over ℝ. -/
noncomputable def sampleVarR (xs : List ℝ) : ℝ :=
  ((xs.map (fun x => (x - meanR xs) ^ 2)).sum) / ((xs.length : ℝ) - 1)

/-- pandas `.std()` (ddof = 1): NaN (`none`) on fewer than 2 values, else the
square root of the sample variance. -/
noncomputable def pandasStd (xs : List ℝ) : Option ℝ :=
  if xs.length < 2 then none else some (Real.sqrt (sampleVarR xs))

/-- risk_metrics.py `annualized_volatility`:
`returns.std() * np.sqrt(periods_per_year)`, NaN propagating. -/
noncomputable def annualized_volatility (returns : List ℝ)
    (periods_per_year : ℝ) : Option ℝ :=
  (pandasStd returns).map (fun s => s * Real.sqrt periods_per_year)

open Classical in
/-- risk_metrics.py `sharpe_ratio`: 0 when the excess-return std is exactly 0,
NaN (`none`) when the std itself is NaN (fewer than 2 points), else the
annualised mean-over-std. -/
noncomputable def sharpe_ratio (returns : List ℝ)
    (risk_free_rate periods_per_year : ℝ) : Option ℝ :=
  let excess_returns := returns.map (fun r => r - risk_free_rate / periods_per_year)
  match pandasStd excess_returns with
  | none => none
  | some s =>
      if s = 0 then some 0
      else some (meanR excess_returns / s * Real.sqrt periods_per_year)

/-- risk_metrics.py `value_at_risk_parametric`.  `ppf` is scipy's
`stats.norm.ppf` (inverse standard-normal CDF), an external numeric routine
the theorems hold for uniformly. -/
noncomputable def value_at_risk_parametric (ppf : ℝ → ℝ) (returns : List ℝ)
    (confidence_level : ℝ) : ℝ :=
  if returns.length < 2 then 0
  else
    let mean := meanR returns
    let std := Real.sqrt (sampleVarR returns)
    let z_score := ppf (1 - confidence_level)
    |(-(mean + z_score * std))|

/-! ### State-threading wrappers (frame conditions)

The source mutates only `.copy()`s of its arguments
(calculations.py lines 15, 54); threading the caller's frames through each
call makes that visible: the state component is returned untouched. -/

/-- `calculate_portfolio_values` as a transformer of the caller-owned
(holdings, current-prices) state. -/
def calculate_portfolio_values_call
    (st : List Holding × List (String × ℚ)) :
    List ValuedHolding × (List Holding × List (String × ℚ)) :=
  (calculate_portfolio_values st.1 st.2, st)

/-- `calculate_portfolio_returns` as a transformer of the caller-owned
(price-panel, holdings) state. -/
def calculate_portfolio_returns_call
    (st : List (String × List ℚ) × List Holding) :
    (List ℚ × List ℚ) × (List (String × List ℚ) × List Holding) :=
  (calculate_portfolio_returns st.1 st.2, st)

/-! ### Claim theorems -/

/-- C9: `calculate_portfolio_values` returns one output row per input holding,
in input order (row `i` keeps holding `i`'s ticker, quantity, buy price); a
row whose ticker is absent from the current-price map gets `none` (NaN) in
Current_Price, Current_Value, Gain/Loss and Return %, while a priced row gets
the computed values — no input aborts the whole batch. -/
theorem calculate_portfolio_values_rows (pf : List Holding)
    (prices : List (String × ℚ)) :
    (calculate_portfolio_values pf prices).length = pf.length ∧
    ∀ i, i < pf.length →
      ((calculate_portfolio_values pf prices).getD i default).ticker
          = (pf.getD i default).ticker ∧
      ((calculate_portfolio_values pf prices).getD i default).quantity
          = (pf.getD i default).quantity ∧
      ((calculate_portfolio_values pf prices).getD i default).buy_price
          = (pf.getD i default).buy_price ∧
      ((calculate_portfolio_values pf prices).getD i default).Total_Cost
          = (pf.getD i default).quantity * (pf.getD i default).buy_price ∧
      (prices.lookup (pf.getD i default).ticker = none →
        ((calculate_portfolio_values pf prices).getD i default).Current_Price = none ∧
        ((calculate_portfolio_values pf prices).getD i default).Current_Value = none ∧
        ((calculate_portfolio_values pf prices).getD i default).Gain_Loss = none ∧
        ((calculate_portfolio_values pf prices).getD i default).Return_pct = none) ∧
      (∀ p, prices.lookup (pf.getD i default).ticker = some p →
        ((calculate_portfolio_values pf prices).getD i default).Current_Price = some p ∧
        ((calculate_portfolio_values pf prices).getD i default).Current_Value
            = some ((pf.getD i default).quantity * p) ∧
        ((calculate_portfolio_values pf prices).getD i default).Gain_Loss
            = some ((pf.getD i default).quantity * p
                - (pf.getD i default).quantity * (pf.getD i default).buy_price) ∧
        ((pf.getD i default).quantity * (pf.getD i default).buy_price ≠ 0 →
          ((calculate_portfolio_values pf prices).getD i default).Return_pct
              = some (((pf.getD i default).quantity * p
                  - (pf.getD i default).quantity * (pf.getD i default).buy_price)
                / ((pf.getD i default).quantity * (pf.getD i default).buy_price) * 100))) := by
  constructor
  · simp [calculate_portfolio_values]
  · intro i hi
    have hgd : (calculate_portfolio_values pf prices).getD i default
        = valueRow prices (pf.getD i default) := by
      have hi2 : i < (calculate_portfolio_values pf prices).length := by
        simpa [calculate_portfolio_values] using hi
      rw [List.getD_eq_getElem _ _ hi2, List.getD_eq_getElem _ _ hi]
      simp [calculate_portfolio_values]
    rw [hgd]
    set h := pf.getD i default with hh
    refine ⟨rfl, rfl, rfl, rfl, ?_, ?_⟩
    · intro hnone
      simp [valueRow, hnone]
    · intro p hp
      refine ⟨by simp [valueRow, hp], by simp [valueRow, hp], by simp [valueRow, hp], ?_⟩
      intro htc
      simp [valueRow, hp, fdiv?, htc]

/-- C9 witness: a two-row portfolio where only "AAPL" has a current price;
the priced row is fully computed, the other row is flagged with NaNs. -/
theorem calculate_portfolio_values_rows_witness :
    ((calculate_portfolio_values
        [⟨"AAPL", 10, 100, "d"⟩, ⟨"X", 1, 5, "d"⟩] [("AAPL", 150)]).length = 2) ∧
    ((calculate_portfolio_values
        [⟨"AAPL", 10, 100, "d"⟩, ⟨"X", 1, 5, "d"⟩] [("AAPL", 150)]).getD 0
          default).Return_pct = some 50 ∧
    ((calculate_portfolio_values
        [⟨"AAPL", 10, 100, "d"⟩, ⟨"X", 1, 5, "d"⟩] [("AAPL", 150)]).getD 1
          default).Current_Price = none := by
  have h := calculate_portfolio_values_rows
    [⟨"AAPL", 10, 100, "d"⟩, ⟨"X", 1, 5, "d"⟩] [("AAPL", 150)]
  refine ⟨h.1, ?_, ?_⟩
  · have h0 := ((h.2 0 (by decide)).2.2.2.2.2 150 (by rfl)).2.2.2 (by norm_num)
    rw [h0]
    norm_num
  · exact ((h.2 1 (by decide)).2.2.2.2.1 (by rfl)).1

/-- C3: `portfolio_summary` totals the Total_Cost column (all of whose
entries are valid numbers) and the valid (non-NaN) entries of the
Current_Value column, and returns
`(total_value - total_invested)/total_invested * 100`; a zero
`total_invested` (empty portfolio or all-zero cost) yields an undefined
result (`none`, the IEEE non-finite outcome), not a crash. -/
theorem portfolio_summary_spec (df : List ValuedHolding) :
    (portfolio_summary df).1 = (df.map (fun r => r.Total_Cost)).sum ∧
    (portfolio_summary df).2.1 = (df.filterMap (fun r => r.Current_Value)).sum ∧
    ((df.map (fun r => r.Total_Cost)).sum = 0 → (portfolio_summary df).2.2 = none) ∧
    ((df.map (fun r => r.Total_Cost)).sum ≠ 0 →
      (portfolio_summary df).2.2 =
        some (((df.filterMap (fun r => r.Current_Value)).sum
            - (df.map (fun r => r.Total_Cost)).sum)
          / (df.map (fun r => r.Total_Cost)).sum * 100)) := by
  refine ⟨rfl, rfl, ?_, ?_⟩
  · intro h0
    simp [portfolio_summary, fdiv?, h0]
  · intro hne
    simp [portfolio_summary, fdiv?, hne]

/-- C3 witness: a priced row and an unpriced row (total invested 1005,
total value 1500, return 3300/67 %), and the degenerate empty portfolio. -/
theorem portfolio_summary_spec_witness :
    (portfolio_summary
        [⟨"AAPL", 10, 100, "d", some 150, 1000, some 1500, some 500, some 50⟩,
         ⟨"X", 1, 5, "d", none, 5, none, none, none⟩]).1 = 1005 ∧
    (portfolio_summary
        [⟨"AAPL", 10, 100, "d", some 150, 1000, some 1500, some 500, some 50⟩,
         ⟨"X", 1, 5, "d", none, 5, none, none, none⟩]).2.1 = 1500 ∧
    (portfolio_summary
        [⟨"AAPL", 10, 100, "d", some 150, 1000, some 1500, some 500, some 50⟩,
         ⟨"X", 1, 5, "d", none, 5, none, none, none⟩]).2.2 = some (3300 / 67) ∧
    (portfolio_summary []).2.2 = none := by
  have h := portfolio_summary_spec
    [⟨"AAPL", 10, 100, "d", some 150, 1000, some 1500, some 500, some 50⟩,
     ⟨"X", 1, 5, "d", none, 5, none, none, none⟩]
  have he := portfolio_summary_spec []
  refine ⟨?_, ?_, ?_, ?_⟩
  · rw [h.1]
    norm_num
  · rw [h.2.1]
    simp [List.filterMap_cons]
  · rw [h.2.2.2 (by norm_num)]
    simp [List.filterMap_cons]
    norm_num
  · exact he.2.2.1 rfl

/-- C10: the embedded core functions neither mutate their arguments (the
source writes only to `.copy()`s, so threading the caller's frames through a
call returns them unchanged) nor behave nondeterministically (equal inputs
give equal outputs). -/
theorem core_functions_pure
    (pf pf2 : List Holding) (cp cp2 : List (String × ℚ))
    (panel panel2 : List (String × List ℚ)) :
    (calculate_portfolio_values_call (pf, cp)).2 = (pf, cp) ∧
    (calculate_portfolio_returns_call (panel, pf)).2 = (panel, pf) ∧
    (pf = pf2 → cp = cp2 →
      calculate_portfolio_values pf cp = calculate_portfolio_values pf2 cp2) ∧
    (pf = pf2 → panel = panel2 →
      calculate_portfolio_returns panel pf = calculate_portfolio_returns panel2 pf2) := by
  refine ⟨rfl, rfl, ?_, ?_⟩
  · intro h1 h2
    rw [h1, h2]
  · intro h1 h2
    rw [h1, h2]

/-- C10 witness: one concrete holdings table and price dict pass through a
call unchanged, and a repeated run gives the same output. -/
theorem core_functions_pure_witness :
    (calculate_portfolio_values_call ([⟨"A", 1, 1, "d"⟩], [("A", 2)])).2
        = ([⟨"A", 1, 1, "d"⟩], [("A", 2)]) ∧
    (calculate_portfolio_returns_call ([("A", [1, 2])], [⟨"A", 1, 1, "d"⟩])).2
        = ([("A", [1, 2])], [⟨"A", 1, 1, "d"⟩]) ∧
    calculate_portfolio_values [⟨"A", 1, 1, "d"⟩] [("A", 2)]
        = calculate_portfolio_values [⟨"A", 1, 1, "d"⟩] [("A", 2)] := by
  have h := core_functions_pure [⟨"A", 1, 1, "d"⟩] [⟨"A", 1, 1, "d"⟩]
    [("A", 2)] [("A", 2)] [("A", [1, 2])] [("A", [1, 2])]
  exact ⟨h.1, h.2.1, h.2.2.1 rfl rfl⟩

/-- C5: the three VaR-family functions return exactly 0 on series of length
0 or 1, and a non-negative value on series of length at least 2, for any
confidence level in (0,1) (outside that interval numpy's percentile raises,
and scipy's ppf is non-finite, so the claim is scoped to proper confidence
levels).  `ppf` ranges over all inverse-CDF implementations. -/
theorem var_cvar_degenerate_nonneg (xs : List ℚ) (ys : List ℝ)
    (cl : ℚ) (clR : ℝ) (ppf : ℝ → ℝ)
    (hcl0 : 0 < cl) (hcl1 : cl < 1) (hclR0 : 0 < clR) (hclR1 : clR < 1) :
    (xs.length < 2 → value_at_risk_historical xs cl = 0 ∧
      conditional_value_at_risk xs cl = 0) ∧
    (ys.length < 2 → value_at_risk_parametric ppf ys clR = 0) ∧
    (2 ≤ xs.length → 0 ≤ value_at_risk_historical xs cl ∧
      0 ≤ conditional_value_at_risk xs cl) ∧
    (2 ≤ ys.length → 0 ≤ value_at_risk_parametric ppf ys clR) := by
  refine ⟨?_, ?_, ?_, ?_⟩
  · intro h
    constructor
    · simp only [value_at_risk_historical]
      rw [if_pos h]
    · simp only [conditional_value_at_risk]
      rw [if_pos h]
  · intro h
    simp only [value_at_risk_parametric]
    rw [if_pos h]
  · intro h
    have hn : ¬ xs.length < 2 := by omega
    constructor
    · simp only [value_at_risk_historical]
      rw [if_neg hn]
      exact abs_nonneg _
    · simp only [conditional_value_at_risk]
      rw [if_neg hn]
      split
      · exact abs_nonneg _
      · exact abs_nonneg _
  · intro h
    have hn : ¬ ys.length < 2 := by omega
    simp only [value_at_risk_parametric]
    rw [if_neg hn]
    exact abs_nonneg _

/-- C5 witness: singleton series give 0 for all three functions; length-2
series give non-negative values, at confidence level 1/2 with the identity
standing in for the inverse CDF. -/
theorem var_cvar_degenerate_nonneg_witness :
    (value_at_risk_historical [1] (1/2) = 0 ∧
      conditional_value_at_risk [1] (1/2) = 0) ∧
    value_at_risk_parametric (fun x => x) [(1 : ℝ)] (1/2) = 0 ∧
    (0 ≤ value_at_risk_historical [1, 2] (1/2) ∧
      0 ≤ conditional_value_at_risk [1, 2] (1/2)) ∧
    0 ≤ value_at_risk_parametric (fun x => x) [(1 : ℝ), 2] (1/2) := by
  have h1 := var_cvar_degenerate_nonneg [1] [(1 : ℝ)] (1/2) (1/2) (fun x => x)
    (by norm_num) (by norm_num) (by norm_num) (by norm_num)
  have h2 := var_cvar_degenerate_nonneg [1, 2] [(1 : ℝ), 2] (1/2) (1/2) (fun x => x)
    (by norm_num) (by norm_num) (by norm_num) (by norm_num)
  exact ⟨h1.1 (by simp), h1.2.1 (by simp), h2.2.2.1 (by simp), h2.2.2.2 (by simp)⟩

/-- On a series with unique dates (a pandas index), `lookupDate` finds
exactly the rows of the list. -/
lemma lookupDate_eq_some_iff {b : DatedSeries} (hb : (b.map Prod.fst).Nodup)
    {d : ℕ} {v : Option ℚ} : lookupDate b d = some v ↔ (d, v) ∈ b := by
  induction b with
  | nil => simp [lookupDate]
  | cons row rest ih =>
    obtain ⟨k, w⟩ := row
    simp only [List.map_cons, List.nodup_cons] at hb
    by_cases hd : d = k
    · subst hd
      simp only [lookupDate, List.lookup_cons_self]
      constructor
      · intro h
        rw [Option.some_inj] at h
        subst h
        exact List.mem_cons_self _ _
      · intro hmem
        rcases List.mem_cons.mp hmem with heq | hmem2
        · obtain ⟨-, hv⟩ := (Prod.mk.injEq _ _ _ _).mp heq
          rw [hv]
        · exact absurd (List.mem_map.mpr ⟨(d, v), hmem2, rfl⟩) hb.1
    · have hstep : lookupDate ((k, w) :: rest) d = lookupDate rest d := by
        simp only [lookupDate, List.lookup_cons]
        have : (d == k) = false := by simpa using hd
        rw [this]
      rw [hstep, ih hb.2]
      constructor
      · exact fun h => List.mem_cons_of_mem _ h
      · intro hmem
        rcases List.mem_cons.mp hmem with heq | hmem2
        · exact absurd ((Prod.mk.injEq _ _ _ _).mp heq).1 hd
        · exact hmem2

/-- C6: `calculate_beta` works on the inner join of the two series — the
pairs of values sharing a date, rows with either value missing dropped —
returning exactly 1.0 when fewer than 2 aligned rows exist or the aligned
benchmark variance is 0, and cov/var otherwise.  The date-uniqueness
hypotheses state that each series is indexed like a pandas Series. -/
theorem calculate_beta_spec (p b : DatedSeries)
    (hp : (p.map Prod.fst).Nodup) (hb : (b.map Prod.fst).Nodup) :
    (∀ x y, (x, y) ∈ alignSeries p b ↔ ∃ d, (d, some x) ∈ p ∧ (d, some y) ∈ b) ∧
    ((alignSeries p b).length < 2 → calculate_beta p b = 1) ∧
    (2 ≤ (alignSeries p b).length →
      sampleVar ((alignSeries p b).map Prod.snd) = 0 → calculate_beta p b = 1) ∧
    (2 ≤ (alignSeries p b).length →
      sampleVar ((alignSeries p b).map Prod.snd) ≠ 0 →
      calculate_beta p b =
        sampleCov ((alignSeries p b).map Prod.fst) ((alignSeries p b).map Prod.snd)
          / sampleVar ((alignSeries p b).map Prod.snd)) := by
  refine ⟨?_, ?_, ?_, ?_⟩
  · intro x y
    constructor
    · intro hmem
      simp only [alignSeries, List.mem_filterMap] at hmem
      obtain ⟨⟨d, v⟩, hrow, hf⟩ := hmem
      rcases v with _ | x'
      · simp at hf
      · rcases hlk : lookupDate b d with _ | o
        · rw [hlk] at hf
          simp at hf
        · rcases o with _ | y'
          · rw [hlk] at hf
            simp at hf
          · rw [hlk] at hf
            simp only [Option.some_bind, Option.bind_some, id_eq, Option.map_some',
              Option.some_inj, Prod.mk.injEq] at hf
            obtain ⟨hx, hy⟩ := hf
            subst hx
            subst hy
            exact ⟨d, hrow, (lookupDate_eq_some_iff hb).mp hlk⟩
    · rintro ⟨d, hdp, hdb⟩
      have hlk : lookupDate b d = some (some y) := (lookupDate_eq_some_iff hb).mpr hdb
      simp only [alignSeries, List.mem_filterMap]
      exact ⟨(d, some x), hdp, by simp [hlk]⟩
  · intro h
    simp only [calculate_beta]
    rw [if_pos h]
  · intro h hv
    simp only [calculate_beta]
    rw [if_neg (by omega), if_pos hv]
  · intro h hv
    simp only [calculate_beta]
    rw [if_neg (by omega), if_neg hv]

/-- C6 witness: dates 0 and 1 align (the portfolio NaN date 2 and the
benchmark-only date 3 drop out); the aligned benchmark column [2, 6] has
variance 8 and covariance 2 with [1, 2], so beta is 1/4; a constant
benchmark gives beta 1, and empty series give beta 1. -/
theorem calculate_beta_spec_witness :
    calculate_beta [(0, some 1), (1, some 2), (2, none)]
        [(0, some 2), (1, some 6), (3, some 5)] = 1/4 ∧
    calculate_beta [(0, some 1), (1, some 2)] [(0, some 3), (1, some 3)] = 1 ∧
    calculate_beta [] [] = 1 := by
  have hA := calculate_beta_spec [(0, some 1), (1, some 2), (2, none)]
    [(0, some 2), (1, some 6), (3, some 5)] (by decide) (by decide)
  have hB := calculate_beta_spec [(0, some 1), (1, some 2)]
    [(0, some 3), (1, some 3)] (by decide) (by decide)
  have hC := calculate_beta_spec [] [] (by decide) (by decide)
  have halignA : alignSeries [(0, some 1), (1, some 2), (2, none)]
      [(0, some 2), (1, some 6), (3, some 5)] = [(1, 2), (2, 6)] := by decide
  have halignB : alignSeries [(0, some 1), (1, some 2)]
      [(0, some 3), (1, some 3)] = [(1, 3), (2, 3)] := by decide
  refine ⟨?_, ?_, ?_⟩
  · have hv : sampleVar ((alignSeries [(0, some 1), (1, some 2), (2, none)]
        [(0, some 2), (1, some 6), (3, some 5)]).map Prod.snd) ≠ 0 := by
      rw [halignA]
      norm_num [sampleVar, meanQ]
    have hlen : 2 ≤ (alignSeries [(0, some 1), (1, some 2), (2, none)]
        [(0, some 2), (1, some 6), (3, some 5)]).length := by
      rw [halignA]
      norm_num
    rw [hA.2.2.2 hlen hv, halignA]
    norm_num [sampleCov, sampleVar, meanQ]
  · have hv : sampleVar ((alignSeries [(0, some 1), (1, some 2)]
        [(0, some 3), (1, some 3)]).map Prod.snd) = 0 := by
      rw [halignB]
      norm_num [sampleVar, meanQ]
    have hlen : 2 ≤ (alignSeries [(0, some 1), (1, some 2)]
        [(0, some 3), (1, some 3)]).length := by
      rw [halignB]
      norm_num
    exact hB.2.2.1 hlen hv
  · exact hC.2.1 (by decide)

/-- The seed of a running max is a lower bound of the result. -/
lemma le_foldl_max (l : List ℚ) (a : ℚ) : a ≤ l.foldl max a := by
  induction l generalizing a with
  | nil => exact le_refl a
  | cons b t ih => exact le_trans (le_max_left a b) (ih (max a b))

/-- Every element folded into a running max is below the result. -/
lemma mem_le_foldl_max (l : List ℚ) : ∀ (a x : ℚ), x ∈ l → x ≤ l.foldl max a := by
  induction l with
  | nil =>
    intro a x hx
    cases hx
  | cons b t ih =>
    intro a x hx
    rcases List.mem_cons.mp hx with heq | hx2
    · subst heq
      exact le_trans (le_max_right a x) (le_foldl_max t (max a x))
    · exact ih (max a b) x hx2

/-- Every entry of a running product of positive factors is positive. -/
lemma cumprod_pos (l : List ℚ) (hl : ∀ x ∈ l, 0 < x) :
    ∀ y ∈ cumprod l, 0 < y := by
  intro y hy
  simp only [cumprod, List.mem_map, List.mem_range] at hy
  obtain ⟨t, ht, rfl⟩ := hy
  exact List.prod_pos (fun a ha => hl a (List.mem_of_mem_take ha))

/-- C7 counterexample: for the return series [-2, 1] (a loss of more than
100 % makes the cumulative growth factor negative) the drawdown series is
[0, 1], whose second value is positive — so "every drawdown value is ≤ 0"
is false for an arbitrary return series. -/
theorem drawdown_series_positive_cex :
    calculate_drawdown_series [-2, 1] = [0, 1] ∧ ¬ ((1 : ℚ) ≤ 0) := by
  constructor
  · norm_num [calculate_drawdown_series, cumprod, List.range_succ, List.max?]
  · norm_num

/-- C7 amended: for every return series whose returns all exceed -1 (so the
cumulative growth factors stay positive — the only series price data can
produce), every drawdown value is ≤ 0; and unconditionally `max_drawdown`
equals the minimum of the drawdown series (both NaN/`none` on empty input). -/
theorem drawdown_nonpos_and_min (returns : List ℚ)
    (hr : ∀ r ∈ returns, -1 < r) :
    (∀ d ∈ calculate_drawdown_series returns, d ≤ 0) ∧
    max_drawdown returns = (calculate_drawdown_series returns).min? := by
  constructor
  · intro d hd
    simp only [calculate_drawdown_series, List.mem_map, List.mem_range] at hd
    obtain ⟨t, ht, rfl⟩ := hd
    set cumulative := cumprod (returns.map (fun r => 1 + r)) with hcum
    have hpos : ∀ y ∈ cumulative, 0 < y := by
      refine cumprod_pos _ ?_
      intro x hx
      simp only [List.mem_map] at hx
      obtain ⟨r, hrmem, rfl⟩ := hx
      have := hr r hrmem
      linarith
    cases htk : cumulative.take (t + 1) with
    | nil =>
      exfalso
      have hlen : (cumulative.take (t + 1)).length = min (t + 1) cumulative.length :=
        List.length_take _ _
      rw [htk] at hlen
      simp at hlen
      omega
    | cons hd0 tl =>
      have hm : (((hd0 :: tl).max?).getD 0 : ℚ) = tl.foldl max hd0 := rfl
      rw [hm]
      have hhd : 0 < hd0 :=
        hpos hd0 (List.mem_of_mem_take (htk ▸ List.mem_cons_self hd0 tl))
      have hmpos : 0 < tl.foldl max hd0 := lt_of_lt_of_le hhd (le_foldl_max tl hd0)
      have ht2 : t < (cumulative.take (t + 1)).length := by
        rw [List.length_take]
        omega
      have ht3 : t < (hd0 :: tl).length := by
        rw [← htk]
        exact ht2
      have hg : (hd0 :: tl).getD t 0 = cumulative.getD t 0 := by
        rw [← htk, List.getD_eq_getElem _ _ ht2, List.getD_eq_getElem _ _ ht]
        exact List.getElem_take _
      have hcmem : cumulative.getD t 0 ∈ hd0 :: tl := by
        rw [← hg, List.getD_eq_getElem _ _ ht3]
        exact List.getElem_mem ht3
      have hcle : cumulative.getD t 0 ≤ tl.foldl max hd0 := by
        rcases List.mem_cons.mp hcmem with heq | hmem2
        · rw [heq]
          exact le_foldl_max tl hd0
        · exact mem_le_foldl_max tl hd0 _ hmem2
      exact div_nonpos_iff.mpr (Or.inr ⟨by linarith, le_of_lt hmpos⟩)
  · rfl

/-- C7 witness: the ordinary series [0.1, -0.2] — both drawdown values are
≤ 0 and `max_drawdown` is the series minimum. -/
theorem drawdown_nonpos_and_min_witness :
    (∀ d ∈ calculate_drawdown_series [1/10, -1/5], d ≤ 0) ∧
    max_drawdown [1/10, -1/5] = (calculate_drawdown_series [1/10, -1/5]).min? :=
  drawdown_nonpos_and_min [1/10, -1/5] (by norm_num)

/-- C2 counterexample: on the length-1 series [1], `annualized_volatility`
returns NaN (`none`) — pandas sample std of fewer than 2 points is NaN and
the code has no guard — not 0 as claimed. -/
theorem annualized_volatility_short_series_cex :
    annualized_volatility [(1 : ℝ)] 252 = none ∧ (none : Option ℝ) ≠ some 0 := by
  constructor
  · simp [annualized_volatility, pandasStd]
  · simp

/-- C2 amended: for series of length 0 or 1 `annualized_volatility` returns
NaN (`none`), since pandas `.std()` (ddof = 1) of fewer than 2 points is NaN;
for length ≥ 2 it returns the sample standard deviation times √ppy. -/
theorem annualized_volatility_spec (xs : List ℝ) (ppy : ℝ) :
    (xs.length < 2 → annualized_volatility xs ppy = none) ∧
    (2 ≤ xs.length → annualized_volatility xs ppy =
      some (Real.sqrt
          ((xs.map (fun x => (x - xs.sum / xs.length) ^ 2)).sum
            / ((xs.length : ℝ) - 1))
        * Real.sqrt ppy)) := by
  constructor
  · intro h
    simp only [annualized_volatility, pandasStd]
    rw [if_pos h]
    rfl
  · intro h
    simp only [annualized_volatility, pandasStd]
    rw [if_neg (by omega)]
    rfl

/-- C2 witness: the series [1, 2, 3] has sample variance 1, so its
annualized volatility with 4 periods per year is √1·√4 = 2. -/
theorem annualized_volatility_spec_witness :
    annualized_volatility [(1 : ℝ), 2, 3] 4 = some 2 := by
  have h := (annualized_volatility_spec [(1 : ℝ), 2, 3] 4).2 (by simp)
  rw [h]
  have hvar : (([(1 : ℝ), 2, 3].map
      (fun x => (x - [(1 : ℝ), 2, 3].sum / ([(1 : ℝ), 2, 3].length : ℕ)) ^ 2)).sum
        / ((([(1 : ℝ), 2, 3].length : ℕ) : ℝ) - 1)) = 1 := by
    norm_num
  rw [hvar, Real.sqrt_one]
  have h4 : Real.sqrt 4 = 2 := by
    rw [show (4 : ℝ) = 2 ^ 2 by norm_num]
    exact Real.sqrt_sq (by norm_num)
  rw [h4]
  norm_num

/-- A list all of whose elements equal `c` sums to `length · c`. -/
lemma sum_const_list (l : List ℝ) (c : ℝ) (h : ∀ x ∈ l, x = c) :
    l.sum = l.length * c := by
  induction l with
  | nil => simp
  | cons b t ih =>
    have hb := h b (List.mem_cons_self b t)
    have ht : ∀ x ∈ t, x = c := fun x hx => h x (List.mem_cons_of_mem b hx)
    rw [List.sum_cons, ih ht, hb, List.length_cons]
    push_cast
    ring

/-- The sample variance of a nonempty constant list is 0. -/
lemma sampleVarR_const (l : List ℝ) (hne : l ≠ [])
    (hid : ∀ u ∈ l, ∀ v ∈ l, u = v) : sampleVarR l = 0 := by
  obtain ⟨b, t, rfl⟩ : ∃ b t, l = b :: t := by
    cases l with
    | nil => exact absurd rfl hne
    | cons b t => exact ⟨b, t, rfl⟩
  have hc : ∀ u ∈ b :: t, u = b := fun u hu => hid u hu b (List.mem_cons_self b t)
  have hmean : meanR (b :: t) = b := by
    rw [meanR, sum_const_list _ b hc]
    have hlen : ((b :: t).length : ℝ) ≠ 0 := by
      simp only [List.length_cons]
      push_cast
      positivity
    exact mul_div_cancel_left₀ b hlen
  have hz : ∀ y ∈ (b :: t).map (fun x => (x - meanR (b :: t)) ^ 2), y = 0 := by
    intro y hy
    simp only [List.mem_map] at hy
    obtain ⟨x, hx, rfl⟩ := hy
    rw [hmean, hc x hx]
    ring
  rw [sampleVarR, List.sum_eq_zero hz, zero_div]

/-- C4: `sharpe_ratio` returns exactly 0 — with no division-by-zero — when
the excess returns have sample standard deviation 0 (in particular whenever
at least 2 returns are all identical), and otherwise returns
mean(excess)/std(excess)·√ppy. -/
theorem sharpe_ratio_spec (xs : List ℝ) (rf ppy : ℝ) :
    (2 ≤ xs.length → (∀ x ∈ xs, ∀ y ∈ xs, x = y) →
      sharpe_ratio xs rf ppy = some 0) ∧
    (pandasStd (xs.map (fun r => r - rf / ppy)) = some 0 →
      sharpe_ratio xs rf ppy = some 0) ∧
    (∀ s, pandasStd (xs.map (fun r => r - rf / ppy)) = some s → s ≠ 0 →
      sharpe_ratio xs rf ppy =
        some (meanR (xs.map (fun r => r - rf / ppy)) / s * Real.sqrt ppy)) := by
  have key : pandasStd (xs.map (fun r => r - rf / ppy)) = some 0 →
      sharpe_ratio xs rf ppy = some 0 := by
    intro h
    simp only [sharpe_ratio]
    rw [h]
    simp
  refine ⟨?_, key, ?_⟩
  · intro hlen hid
    apply key
    have hlen2 : ¬ (xs.map (fun r => r - rf / ppy)).length < 2 := by
      rw [List.length_map]
      omega
    simp only [pandasStd]
    rw [if_neg hlen2]
    have hne : xs.map (fun r => r - rf / ppy) ≠ [] := by
      intro hemp
      rw [hemp] at hlen2
      simp at hlen2
    have hidm : ∀ u ∈ xs.map (fun r => r - rf / ppy),
        ∀ v ∈ xs.map (fun r => r - rf / ppy), u = v := by
      intro u hu v hv
      simp only [List.mem_map] at hu hv
      obtain ⟨x, hx, rfl⟩ := hu
      obtain ⟨y, hy, rfl⟩ := hv
      rw [hid x hx y hy]
    rw [sampleVarR_const _ hne hidm, Real.sqrt_zero]
  · intro s hs hsne
    simp only [sharpe_ratio]
    rw [hs]
    simp [hsne]

/-- C4 witness: the identical series [1, 1] gives Sharpe exactly 0; the
series [1, 2, 3] with rf = 0 and 4 periods per year has excess std 1 and
mean 2, giving 2/1·√4 = 4. -/
theorem sharpe_ratio_spec_witness :
    sharpe_ratio [(1 : ℝ), 1] 0 1 = some 0 ∧
    sharpe_ratio [(1 : ℝ), 2, 3] 0 4 = some 4 := by
  constructor
  · refine (sharpe_ratio_spec [(1 : ℝ), 1] 0 1).1 (by simp) ?_
    intro x hx y hy
    have hx1 : x = 1 := by simpa using hx
    have hy1 : y = 1 := by simpa using hy
    rw [hx1, hy1]
  · have hvar : sampleVarR ([(1 : ℝ), 2, 3].map (fun r => r - 0 / 4)) = 1 := by
      norm_num [sampleVarR, meanR]
    have hstd : pandasStd ([(1 : ℝ), 2, 3].map (fun r => r - 0 / 4)) = some 1 := by
      simp only [pandasStd]
      rw [if_neg (by simp)]
      rw [hvar, Real.sqrt_one]
    have h := (sharpe_ratio_spec [(1 : ℝ), 2, 3] 0 4).2.2 1 hstd (by norm_num)
    rw [h]
    have hm : meanR ([(1 : ℝ), 2, 3].map (fun r => r - 0 / 4)) = 2 := by
      norm_num [meanR]
    rw [hm]
    have h4 : Real.sqrt 4 = 2 := by
      rw [show (4 : ℝ) = 2 ^ 2 by norm_num]
      exact Real.sqrt_sq (by norm_num)
    rw [h4]
    norm_num

/-- Dividing each summand by a common denominator divides the sum. -/
lemma sum_map_div (ks : List String) (f : String → ℚ) (c : ℚ) :
    (ks.map (fun k => f k / c)).sum = (ks.map f).sum / c := by
  induction ks with
  | nil => simp
  | cons k t ih =>
    rw [List.map_cons, List.sum_cons, List.map_cons, List.sum_cons, ih, add_div]

/-- An indicator sum over keys not containing `k` vanishes. -/
lemma sum_if_not_mem (ks : List String) (k : String) (v : ℚ) (hk : k ∉ ks) :
    (ks.map (fun j => if k = j then v else 0)).sum = 0 := by
  induction ks with
  | nil => simp
  | cons a t ih =>
    rw [List.map_cons, List.sum_cons,
      if_neg (fun h => hk (List.mem_cons.mpr (Or.inl h))),
      ih (fun h => hk (List.mem_cons.mpr (Or.inr h))), add_zero]

/-- An indicator sum over duplicate-free keys containing `k` picks out `v`. -/
lemma sum_if_mem (ks : List String) (k : String) (v : ℚ) (hnd : ks.Nodup)
    (hk : k ∈ ks) :
    (ks.map (fun j => if k = j then v else 0)).sum = v := by
  induction ks with
  | nil => cases hk
  | cons a t ih =>
    rw [List.map_cons, List.sum_cons]
    rcases List.mem_cons.mp hk with heq | hmem
    · subst heq
      rw [if_pos rfl, sum_if_not_mem t k v (List.nodup_cons.mp hnd).1, add_zero]
    · have hka : k ≠ a := by
        intro h
        subst h
        exact (List.nodup_cons.mp hnd).1 hmem
      rw [if_neg hka, ih (List.nodup_cons.mp hnd).2 hmem, zero_add]

/-- Grouping by ticker and summing group totals recovers the overall total:
summing `aggInitial` over any duplicate-free key list covering every
holding's ticker gives `totalInitial`. -/
lemma grouped_sum (l : List Holding) (ks : List String) (hnd : ks.Nodup)
    (hcov : ∀ h ∈ l, h.ticker ∈ ks) :
    (ks.map (fun k => aggInitial l k)).sum = totalInitial l := by
  induction l with
  | nil =>
    simp [aggInitial, totalInitial]
  | cons x t ih =>
    have hx := hcov x (List.mem_cons_self x t)
    have hcovt : ∀ h ∈ t, h.ticker ∈ ks :=
      fun h hh => hcov h (List.mem_cons_of_mem x hh)
    have hstep : ∀ k, aggInitial (x :: t) k
        = (if x.ticker = k then initialValue x else 0) + aggInitial t k := by
      intro k
      by_cases hxk : x.ticker = k
      · rw [if_pos hxk]
        have hf : List.filter (fun h => decide (h.ticker = k)) (x :: t)
            = x :: List.filter (fun h => decide (h.ticker = k)) t :=
          List.filter_cons_of_pos (decide_eq_true hxk)
        simp only [aggInitial, hf, List.map_cons, List.sum_cons]
      · rw [if_neg hxk, zero_add]
        have hf : List.filter (fun h => decide (h.ticker = k)) (x :: t)
            = List.filter (fun h => decide (h.ticker = k)) t :=
          List.filter_cons_of_neg (by simpa using hxk)
        simp only [aggInitial, hf]
    calc (ks.map (fun k => aggInitial (x :: t) k)).sum
        = (ks.map (fun k =>
            (if x.ticker = k then initialValue x else 0) + aggInitial t k)).sum := by
          simp only [hstep]
      _ = (ks.map (fun k => if x.ticker = k then initialValue x else 0)).sum
            + (ks.map (fun k => aggInitial t k)).sum := List.sum_map_add
      _ = initialValue x + totalInitial t := by
          rw [sum_if_mem ks x.ticker _ hnd hx, ih hcovt]
      _ = totalInitial (x :: t) := by
          simp [totalInitial]

/-- C1 counterexample: portfolio {A: 1 share at 1, B: 1 share at 1} with a
price panel containing only A.  The weights actually applied are
{A: 1/2} — not renormalised — so they sum to 1/2, and the single usable
ticker A gets weight 1/2, not 1.0. -/
theorem appliedWeights_not_normalized_cex :
    appliedWeights [("A", [1, 2])] [⟨"A", 1, 1, "d"⟩, ⟨"B", 1, 1, "d"⟩]
        = [("A", 1/2)] ∧
    ((appliedWeights [("A", [1, 2])] [⟨"A", 1, 1, "d"⟩, ⟨"B", 1, 1, "d"⟩]).map
        Prod.snd).sum = 1/2 ∧
    (1/2 : ℚ) ≠ 1 := by
  have hcomm : commonTickers [("A", [1, 2])] [⟨"A", 1, 1, "d"⟩, ⟨"B", 1, 1, "d"⟩]
      = ["A"] := by decide
  have hfilA : List.filter (fun h => decide (h.ticker = "A"))
      [(⟨"A", 1, 1, "d"⟩ : Holding), ⟨"B", 1, 1, "d"⟩] = [⟨"A", 1, 1, "d"⟩] := by
    decide
  have hagg : aggInitial [⟨"A", 1, 1, "d"⟩, ⟨"B", 1, 1, "d"⟩] "A" = 1 := by
    simp only [aggInitial, hfilA, List.map_cons, List.map_nil, List.sum_cons,
      List.sum_nil]
    norm_num [initialValue]
  have htotv : totalInitial [⟨"A", 1, 1, "d"⟩, ⟨"B", 1, 1, "d"⟩] = 2 := by
    norm_num [totalInitial, initialValue]
  have h1 : appliedWeights [("A", [1, 2])] [⟨"A", 1, 1, "d"⟩, ⟨"B", 1, 1, "d"⟩]
      = [("A", 1/2)] := by
    simp only [appliedWeights, hcomm, List.map_cons, List.map_nil, weight,
      hagg, htotv]
  refine ⟨h1, ?_, by norm_num⟩
  rw [h1]
  norm_num

/-- C1 amended: the weights applied by `calculate_portfolio_returns` are the
cost-weights of the usable tickers without renormalisation: they sum to
(initial cost of usable tickers)/(total initial cost), which is 1 exactly
when every held ticker has usable price history in the panel (tickers with
no history silently contribute weight 0, per §4.2 step 4). -/
theorem appliedWeights_sum_spec (prices_df : List (String × List ℚ))
    (pf : List Holding) (htot : totalInitial pf ≠ 0) :
    ((appliedWeights prices_df pf).map Prod.snd).sum
      = ((commonTickers prices_df pf).map (aggInitial pf)).sum / totalInitial pf ∧
    ((∀ h ∈ pf, h.ticker ∈ panelCols prices_df) →
      ((appliedWeights prices_df pf).map Prod.snd).sum = 1) := by
  have hgen : ((appliedWeights prices_df pf).map Prod.snd).sum
      = ((commonTickers prices_df pf).map (aggInitial pf)).sum / totalInitial pf := by
    simp only [appliedWeights, List.map_map, Function.comp]
    exact sum_map_div _ _ _
  refine ⟨hgen, ?_⟩
  intro hall
  rw [hgen]
  have hcomm : commonTickers prices_df pf = portfolioTickers pf := by
    apply List.filter_eq_self.mpr
    intro tk htk
    have hmem : tk ∈ pf.map (fun h => h.ticker) := List.mem_dedup.mp htk
    obtain ⟨h, hh, rfl⟩ := List.mem_map.mp hmem
    exact decide_eq_true (hall h hh)
  rw [hcomm,
    grouped_sum pf (portfolioTickers pf) (List.nodup_dedup _)
      (fun h hh => List.mem_dedup.mpr (List.mem_map.mpr ⟨h, hh, rfl⟩))]
  exact div_self htot

/-- C1 witness: both tickers priced — weights 1/4 and 3/4 sum to exactly 1. -/
theorem appliedWeights_sum_spec_witness :
    ((appliedWeights [("A", [1, 2]), ("B", [1, 2])]
        [⟨"A", 1, 1, "d"⟩, ⟨"B", 1, 3, "d"⟩]).map Prod.snd).sum = 1 := by
  have h := appliedWeights_sum_spec [("A", [1, 2]), ("B", [1, 2])]
    [⟨"A", 1, 1, "d"⟩, ⟨"B", 1, 3, "d"⟩]
    (by norm_num [totalInitial, initialValue])
  exact h.2 (by decide)

/-- Folding `min` over a list of copies of the seed returns the seed. -/
lemma foldl_min_const (t : List ℕ) (L : ℕ) (hall : ∀ x ∈ t, x = L) :
    t.foldl min L = L := by
  induction t with
  | nil => rfl
  | cons x r ih =>
    have hx : x = L := hall x (List.mem_cons_self x r)
    rw [List.foldl_cons, hx, min_self]
    exact ih (fun y hy => hall y (List.mem_cons_of_mem x hy))

/-- The minimum of a nonempty constant list is that constant. -/
lemma min?_getD_of_all_eq (l : List ℕ) (L : ℕ) (hne : l ≠ [])
    (hall : ∀ x ∈ l, x = L) : l.min?.getD 0 = L := by
  cases l with
  | nil => exact absurd rfl hne
  | cons a t =>
    have hmin : (a :: t).min? = some (t.foldl min a) := rfl
    have ha : a = L := hall a (List.mem_cons_self a t)
    subst ha
    rw [hmin, Option.getD_some]
    exact foldl_min_const t a (fun x hx => hall x (List.mem_cons_of_mem a hx))

/-- Deduplicating a nonempty constant list leaves the single value. -/
lemma dedup_all_eq (l : List String) (T : String) (hne : l ≠ [])
    (hall : ∀ x ∈ l, x = T) : l.dedup = [T] := by
  induction l with
  | nil => exact absurd rfl hne
  | cons a t ih =>
    have ha : a = T := hall a (List.mem_cons_self a t)
    subst ha
    cases t with
    | nil => simp
    | cons b r =>
      have hb : b = a := (hall b (List.mem_cons_of_mem a (List.mem_cons_self b r))).trans
        (hall a (List.mem_cons_self a (b :: r))).symm
      have hrec : (b :: r).dedup = [a] :=
        ih (by simp) (fun x hx => hall x (List.mem_cons_of_mem a hx))
      rw [List.dedup_cons_of_mem (List.mem_cons.mpr (Or.inl hb.symm)), hrec]

/-- Reading a list back off by index reproduces the list. -/
lemma range_map_getD (xs : List ℚ) :
    (List.range xs.length).map (fun t => xs.getD t 0) = xs := by
  apply List.ext_getElem
  · simp
  · intro n h1 h2
    simp only [List.getElem_map, List.getElem_range]
    exact List.getD_eq_getElem xs 0 h2

/-- `pct_change` written by index: entry `t` is `p[t+1]/p[t] − 1`. -/
lemma pct_change_eq_formula (ps : List ℚ) :
    pct_change ps = (List.range (ps.length - 1)).map
      (fun t => ps.getD (t + 1) 0 / ps.getD t 0 - 1) := by
  apply List.ext_getElem
  · simp only [pct_change, List.length_map, List.length_zip, List.length_tail,
      List.length_range]
    omega
  · intro n h1 h2
    have hn : n < ps.length - 1 := by
      simp only [pct_change, List.length_map, List.length_zip,
        List.length_tail] at h1
      omega
    have h3 : n + 1 < ps.length := by omega
    have h4 : n < ps.length := by omega
    have h5 : n < ps.tail.length := by
      rw [List.length_tail]
      omega
    simp only [pct_change, List.getElem_map, List.getElem_zip, List.getElem_range,
      List.getElem_tail]
    rw [List.getD_eq_getElem _ _ h3, List.getD_eq_getElem _ _ h4]

/-- C8: for a portfolio holding a single ticker (any number of duplicate
lots, positive quantities and buy prices) whose full price history is a
column of a rectangular, gap-free panel, the portfolio return series is
exactly that ticker's period-over-period return series
`p[t+1]/p[t] − 1` with the undefined first period dropped. -/
theorem single_ticker_portfolio_returns (prices_df : List (String × List ℚ))
    (pf : List Holding) (T : String) (ps : List ℚ)
    (hpf : pf ≠ [])
    (hT : ∀ h ∈ pf, h.ticker = T)
    (hpos : ∀ h ∈ pf, 0 < h.quantity ∧ 0 < h.buy_price)
    (hcol : prices_df.lookup T = some ps)
    (hrect : ∀ c ∈ prices_df, c.2.length = ps.length) :
    (calculate_portfolio_returns prices_df pf).1
      = (List.range (ps.length - 1)).map
          (fun t => ps.getD (t + 1) 0 / ps.getD t 0 - 1) := by
  have hTmem : T ∈ panelCols prices_df := by
    obtain ⟨l1, l2, heq, -⟩ := List.lookup_eq_some_iff.mp hcol
    rw [panelCols, heq]
    simp
  have htickers : portfolioTickers pf = [T] := by
    apply dedup_all_eq _ T
    · simpa using hpf
    · intro x hx
      obtain ⟨h, hh, rfl⟩ := List.mem_map.mp hx
      exact hT h hh
  have hcommon : commonTickers prices_df pf = [T] := by
    rw [commonTickers, htickers]
    refine List.filter_eq_self.mpr ?_
    intro a ha
    have haT : a = T := by simpa using ha
    subst haT
    exact decide_eq_true hTmem
  have hfilter : pf.filter (fun h => decide (h.ticker = T)) = pf :=
    List.filter_eq_self.mpr (fun h hh => decide_eq_true (hT h hh))
  have htotal : aggInitial pf T = totalInitial pf := by
    rw [aggInitial, hfilter]
    rfl
  have htotpos : 0 < totalInitial pf := by
    apply List.sum_pos
    · intro x hx
      obtain ⟨h, hh, rfl⟩ := List.mem_map.mp hx
      exact mul_pos (hpos h hh).1 (hpos h hh).2
    · simpa using hpf
  have hw : weight pf T = 1 := by
    rw [weight, htotal]
    exact div_self (ne_of_gt htotpos)
  have hcolp : colPrices prices_df T = ps := by
    rw [colPrices, hcol]
    rfl
  have hne : prices_df ≠ [] := by
    intro h
    rw [h] at hcol
    simp at hcol
  have hrrc : returnRowCount prices_df = ps.length - 1 := by
    rw [returnRowCount,
      min?_getD_of_all_eq _ ps.length (by simpa using hne)
        (by
          intro x hx
          obtain ⟨c, hc, rfl⟩ := List.mem_map.mp hx
          exact hrect c hc)]
  have hlenpct : (pct_change ps).length = ps.length - 1 := by
    simp only [pct_change, List.length_map, List.length_zip, List.length_tail]
    omega
  simp only [calculate_portfolio_returns, hrrc, hcommon, List.map_cons,
    List.map_nil, List.sum_cons, List.sum_nil, add_zero, hw, one_mul, hcolp]
  calc (List.range (ps.length - 1)).map (fun t => (pct_change ps).getD t 0)
      = (List.range (pct_change ps).length).map (fun t => (pct_change ps).getD t 0) := by
        rw [hlenpct]
    _ = pct_change ps := range_map_getD _
    _ = (List.range (ps.length - 1)).map
          (fun t => ps.getD (t + 1) 0 / ps.getD t 0 - 1) := pct_change_eq_formula ps

/-- C8 witness: two lots of ticker A, prices 1 → 2 → 4 (plus an unrelated
column B), portfolio returns exactly [1, 1]. -/
theorem single_ticker_portfolio_returns_witness :
    (calculate_portfolio_returns [("A", [1, 2, 4]), ("B", [1, 1, 1])]
        [⟨"A", 1, 2, "d"⟩, ⟨"A", 2, 3, "d"⟩]).1 = [1, 1] := by
  have h := single_ticker_portfolio_returns [("A", [1, 2, 4]), ("B", [1, 1, 1])]
    [⟨"A", 1, 2, "d"⟩, ⟨"A", 2, 3, "d"⟩] "A" [1, 2, 4]
    (by decide) (by decide) (by norm_num) (by rfl) (by decide)
  rw [h]
  norm_num [List.range_succ]
